import Mathlib

/-!
Verification of the `legal-patterns` library (`src/legal_patterns.py`).

The library is a flat collection of static tables and regular-expression
based helpers for legal document processing.  Strings are modelled as
`List Char` (with `String` wrappers keeping the source's function names);
the Python `re` constructs that actually occur in the source are embedded
directly: word boundaries `\b` test the wordness of the two adjacent
characters, `re.sub` scans left to right over non-overlapping matches,
and the lazy / greedy quantifier semantics of the `PARTY_NAME` pattern
are reproduced by explicit backtracking order.

The character classes model the ASCII behaviour of Python's `\s`, `\w`,
`\d`, `[A-Z]`, `str.lower`, `str.strip` (all inputs appearing in the
specification are ASCII).
-/

/-- Python `\s` (ASCII range): space, tab, newline, carriage return,
vertical tab, form feed. -/
def isSpaceC (c : Char) : Bool :=
  decide (c.toNat = 32 ∨ c.toNat = 9 ∨ c.toNat = 10 ∨ c.toNat = 13 ∨
    c.toNat = 11 ∨ c.toNat = 12)

/-- Python `\w` (ASCII range): letters, digits, underscore. -/
def isWordC (c : Char) : Bool :=
  decide ((97 ≤ c.toNat ∧ c.toNat ≤ 122) ∨ (65 ≤ c.toNat ∧ c.toNat ≤ 90) ∨
    (48 ≤ c.toNat ∧ c.toNat ≤ 57) ∨ c.toNat = 95)

/-- Python `\d` (ASCII range). -/
def isDigitC (c : Char) : Bool :=
  decide (48 ≤ c.toNat ∧ c.toNat ≤ 57)

/-- The regex class `[A-Z]`. -/
def isUpperC (c : Char) : Bool :=
  decide (65 ≤ c.toNat ∧ c.toNat ≤ 90)

/-- The regex class `[A-Za-z\s,\.]` used by `LegalPatterns.PARTY_NAME`. -/
def isNameC (c : Char) : Bool :=
  decide ((97 ≤ c.toNat ∧ c.toNat ≤ 122) ∨ (65 ≤ c.toNat ∧ c.toNat ≤ 90)) ||
    isSpaceC c || c == ',' || c == '.'

/-- Python `str.lower`, restricted to the ASCII letters that appear in the
library's tables and inputs. -/
def lowerChar (c : Char) : Char :=
  if 65 ≤ c.toNat ∧ c.toNat ≤ 90 then Char.ofNat (c.toNat + 32) else c

/-- Wordness of the first character of a suffix (`false` at end of string);
this is what `\b` inspects on its right-hand side. -/
def nextWordB : List Char → Bool
  | [] => false
  | c :: _ => isWordC c

/-- Wordness of the last character of a token (`false` for the empty token);
this is what a trailing `\b` inspects on its left-hand side. -/
def lastWordB (t : List Char) : Bool :=
  match t.getLast? with
  | some c => isWordC c
  | none => false

/-- Does the list start with the given character? -/
def headIs (l : List Char) (d : Char) : Bool :=
  match l with
  | [] => false
  | c :: _ => c == d

/-- The first element is not whitespace (vacuously true for `[]`). -/
def headNotSpace (l : List Char) : Bool :=
  match l with
  | [] => true
  | c :: _ => !isSpaceC c

/-- The last element is not whitespace (vacuously true for `[]`). -/
def lastNotSpace (l : List Char) : Bool :=
  headNotSpace l.reverse

/-- Python `needle in hay` (substring test). -/
def containsSub (needle : List Char) : List Char → Bool
  | [] => needle.isPrefixOf []
  | c :: t => needle.isPrefixOf (c :: t) || containsSub needle t

/-- Python `s.split(sep, 1)` when `sep` occurs: split at the first
occurrence; `none` when `sep` does not occur. -/
def splitOnce (sep : List Char) : List Char → Option (List Char × List Char)
  | [] => if sep.isPrefixOf [] then some ([], []) else none
  | c :: rest =>
    if sep.isPrefixOf (c :: rest) then some ([], (c :: rest).drop sep.length)
    else (splitOnce sep rest).map fun p => (c :: p.1, p.2)

/-- Right strip: drop trailing whitespace. -/
def stripR (l : List Char) : List Char :=
  (List.dropWhile isSpaceC l.reverse).reverse

/-- Python `str.strip()`: drop leading and trailing whitespace. -/
def pyStrip (l : List Char) : List Char :=
  stripR (List.dropWhile isSpaceC l)

/-- Python `str.split()` (no separator): split on whitespace runs,
discarding empty pieces.  `cur` holds the reversed current word. -/
def splitWsAux (cur : List Char) : List Char → List (List Char)
  | [] => if cur.isEmpty then [] else [cur.reverse]
  | c :: rest =>
    if isSpaceC c then
      if cur.isEmpty then splitWsAux [] rest
      else cur.reverse :: splitWsAux [] rest
    else splitWsAux (c :: cur) rest

/-- Python `text.split('\n')` (keeps empty pieces). -/
def splitNl : List Char → List (List Char)
  | [] => [[]]
  | c :: rest =>
    if c = '\n' then [] :: splitNl rest
    else
      match splitNl rest with
      | l :: ls => (c :: l) :: ls
      | [] => [[c]]

/-- Decimal value of a digit run, as computed by Python `int`. -/
def natOfDigits (ds : List Char) : Nat :=
  ds.foldl (fun n c => 10 * n + (c.toNat - 48)) 0

/-! ### The static tables (`COURT_ABBREVIATIONS`, `DOCUMENT_TYPES`) -/

/-- `COURT_ABBREVIATIONS` from `legal_patterns.py`, in insertion order. -/
def COURT_ABBREVIATIONS : List (String × String) :=
  [("S. Ct.", "Supreme Court"),
   ("U.S.", "United States Supreme Court"),
   ("1st Cir.", "First Circuit"),
   ("2d Cir.", "Second Circuit"),
   ("3d Cir.", "Third Circuit"),
   ("4th Cir.", "Fourth Circuit"),
   ("5th Cir.", "Fifth Circuit"),
   ("6th Cir.", "Sixth Circuit"),
   ("7th Cir.", "Seventh Circuit"),
   ("8th Cir.", "Eighth Circuit"),
   ("9th Cir.", "Ninth Circuit"),
   ("10th Cir.", "Tenth Circuit"),
   ("11th Cir.", "Eleventh Circuit"),
   ("D.C. Cir.", "D.C. Circuit"),
   ("Fed. Cir.", "Federal Circuit"),
   ("D.", "District"),
   ("E.D.", "Eastern District"),
   ("W.D.", "Western District"),
   ("N.D.", "Northern District"),
   ("S.D.", "Southern District"),
   ("C.D.", "Central District"),
   ("M.D.", "Middle District"),
   ("Sup. Ct.", "Supreme Court"),
   ("App.", "Appellate"),
   ("App. Div.", "Appellate Division"),
   ("Ct. App.", "Court of Appeals"),
   ("Super. Ct.", "Superior Court")]

/-- `DOCUMENT_TYPES` from `legal_patterns.py`, in insertion order. -/
def DOCUMENT_TYPES : List (String × List String) :=
  [("contract", ["agreement", "contract", "covenant", "deed", "lease"]),
   ("motion", ["motion", "petition", "application", "request"]),
   ("brief", ["brief", "memorandum", "memo"]),
   ("complaint", ["complaint", "petition", "claim"]),
   ("order", ["order", "judgment", "decree", "ruling", "decision"]),
   ("opinion", ["opinion", "decision", "judgment"]),
   ("statute", ["statute", "act", "code", "law"]),
   ("regulation", ["regulation", "rule", "cfr", "administrative"])]

/-! ### `extract_document_type` -/

/-- `extract_document_type` from `legal_patterns.py`: lower-case the text,
iterate the table in insertion order, inner keyword lists in order, and
return the first type label one of whose keywords occurs as a substring;
"unknown" otherwise. -/
def extract_document_type (s : String) : String :=
  let tl := s.toList.map lowerChar
  match DOCUMENT_TYPES.find? (fun p => p.2.any (fun k => containsSub k.toList tl)) with
  | some p => p.1
  | none => "unknown"

/-- Python `str.lower` (character-wise ASCII model). -/
def pyLower (s : String) : String :=
  (s.toList.map lowerChar).asString

/-! ### `normalize_court_name` -/

/-- `normalize_court_name` from `legal_patterns.py`: exact table match
first; otherwise replace each whitespace-delimited token that is a table
key and rejoin with single spaces. -/
def normalize_court_name (s : String) : String :=
  match COURT_ABBREVIATIONS.lookup s with
  | some v => v
  | none =>
    (List.intercalate [' ']
      ((splitWsAux [] s.toList).map fun w =>
        match COURT_ABBREVIATIONS.lookup w.asString with
        | some v => v.toList
        | none => w)).asString

/-! ### `extract_party_names` and `LegalPatterns.PARTY_NAME`

`PARTY_NAME = ^([A-Z][A-Za-z\s,\.]+?)\s+v\.\s+([A-Z][A-Za-z\s,\.]+?)(?:\s*,|$)`
used with `re.match` (anchored at the start, not at the end).  The two
`+?` bodies are lazy (shortest first); each `\s+` is greedy but is
followed by a non-space literal, so only the maximal whitespace run can
match.  `$` also matches just before a single trailing newline. -/

/-- The tail `(?:\s*,|$)` of `PARTY_NAME` at a suffix of the subject. -/
def tailOk (cs : List Char) : Bool :=
  headIs (List.dropWhile isSpaceC cs) ',' || cs.isEmpty || cs == ['\n']

/-- Lazy body loop of the second capture group `[A-Z][A-Za-z\s,\.]+?`:
consume one class character at a time, stopping at the first point where
the tail matches.  `acc` is the reversed body consumed so far. -/
def g2body (c0 : Char) (acc : List Char) : List Char → Option (List Char)
  | [] => none
  | x :: xs =>
    if isNameC x then
      if tailOk xs then some (c0 :: (x :: acc).reverse)
      else g2body c0 (x :: acc) xs
    else none

/-- The second capture group `([A-Z][A-Za-z\s,\.]+?)` followed by the
tail, returning the captured characters. -/
def g2 : List Char → Option (List Char)
  | [] => none
  | c :: rest => if isUpperC c then g2body c [] rest else none

/-- The middle `\s+v\.\s+` of `PARTY_NAME` followed by the second group:
a non-empty whitespace run, the literal `v.`, a non-empty whitespace run,
then the second group. -/
def sepThen : List Char → Option (List Char)
  | [] => none
  | c :: rest =>
    if isSpaceC c then
      match List.dropWhile isSpaceC rest with
      | 'v' :: '.' :: rest2 =>
        match rest2 with
        | [] => none
        | d :: rest3 =>
          if isSpaceC d then g2 (List.dropWhile isSpaceC rest3) else none
      | _ => none
    else none

/-- Lazy body loop of the first capture group: consume one class
character at a time, trying the whole continuation (`\s+v\.\s+`, second
group, tail) after each. -/
def g1body (c0 : Char) (acc : List Char) : List Char → Option (List Char × List Char)
  | [] => none
  | x :: xs =>
    if isNameC x then
      match sepThen xs with
      | some gd => some (c0 :: (x :: acc).reverse, gd)
      | none => g1body c0 (x :: acc) xs
    else none

/-- `LegalPatterns.PARTY_NAME.match`: the two captured groups, or `none`
when the anchored pattern does not match. -/
def partyMatch : List Char → Option (List Char × List Char)
  | [] => none
  | c :: rest => if isUpperC c then g1body c [] rest else none

/-- The literal separator `" v. "` used by the fallback split. -/
def vSep : List Char := [' ', 'v', '.', ' ']

/-- `extract_party_names` from `legal_patterns.py`: pattern match first
(groups stripped); else split once on `" v. "` (parts stripped); else the
whole input as plaintiff with an empty defendant. -/
def extract_party_names (s : String) : String × String :=
  match partyMatch s.toList with
  | some (p, d) => ((pyStrip p).asString, (pyStrip d).asString)
  | none =>
    match splitOnce vSep s.toList with
    | some (a, b) => ((pyStrip a).asString, (pyStrip b).asString)
    | none => (s, "")

/-! ### `format_legal_date` -/

/-- `format_legal_date` from `legal_patterns.py`: `date_str.strip()`. -/
def format_legal_date (s : String) : String :=
  (pyStrip s.toList).asString

/-! ### `is_legal_entity` and `LegalPatterns.CORPORATION`

`CORPORATION = \b(?:Inc\.|LLC|L\.L\.C\.|Corp\.|Corporation|Company|Co\.)\b`
used with `re.search`.  A `\b` holds at a position iff exactly one of the
two adjacent characters is a word character (a missing neighbour counts
as non-word). -/

/-- The seven alternatives of `CORPORATION`, in pattern order. -/
def corpToks : List (List Char) :=
  ["Inc.".toList, "LLC".toList, "L.L.C.".toList, "Corp.".toList,
   "Corporation".toList, "Company".toList, "Co.".toList]

/-- The period-terminated alternatives of `CORPORATION`. -/
def dottedCorpToks : List (List Char) :=
  ["Inc.".toList, "L.L.C.".toList, "Corp.".toList, "Co.".toList]

/-- The alternatives of `CORPORATION` not ending in a period. -/
def undottedCorpToks : List (List Char) :=
  ["LLC".toList, "Corporation".toList, "Company".toList]

/-- `\b tok \b` at the current position: `tok` is a literal prefix of the
suffix `cs`, with a word boundary before (against the wordness `pw` of
the previous character) and after. -/
def bdryMatchAt (pw : Bool) (t cs : List Char) : Bool :=
  t.isPrefixOf cs && (pw != nextWordB cs) && (lastWordB t != nextWordB (cs.drop t.length))

/-- `re.search` for `CORPORATION` as a Bool: try every start position. -/
def corpSearchAux (pw : Bool) : List Char → Bool
  | [] => corpToks.any (fun t => bdryMatchAt pw t [])
  | c :: rest =>
    corpToks.any (fun t => bdryMatchAt pw t (c :: rest)) ||
      corpSearchAux (isWordC c) rest

/-- `is_legal_entity` from `legal_patterns.py`:
`bool(LegalPatterns.CORPORATION.search(text))`. -/
def is_legal_entity (s : String) : Bool :=
  corpSearchAux false s.toList

/-- One corporate-suffix token occurring as a whole word in the intuitive
sense of the specification: the characters adjacent to the occurrence (if
any) are non-word characters.  This is the reading of "contains one of
the tokens as a whole word, not inside a longer token". -/
def wholeAt (pw : Bool) (t cs : List Char) : Bool :=
  t.isPrefixOf cs && !pw && !nextWordB (cs.drop t.length)

/-- Whole-word occurrence of `t` anywhere in the text (specification
side, for comparison with the compiled pattern's behaviour). -/
def occursWhole (pw : Bool) (t : List Char) : List Char → Bool
  | [] => wholeAt pw t []
  | c :: rest => wholeAt pw t (c :: rest) || occursWhole (isWordC c) t rest

/-- Specification-side legal-entity test: some corporate-suffix token
occurs as a whole word. -/
def claimEntity (s : String) : Bool :=
  corpToks.any (fun t => occursWhole false t s.toList)

/-! ### `extract_paragraph_numbers` and `LegalPatterns.PARAGRAPH_NUMBER` -/

/-- `LegalPatterns.PARAGRAPH_NUMBER.match` on one line:
`^\s*\[(\d+)\]\s*`, returning the captured digit run as a number. -/
def lineNum (l : List Char) : Option Nat :=
  match List.dropWhile isSpaceC l with
  | '[' :: r2 =>
    let ds := List.takeWhile isDigitC r2
    if ds.isEmpty then none
    else
      match List.dropWhile isDigitC r2 with
      | ']' :: _ => some (natOfDigits ds)
      | _ => none
  | _ => none

/-- `extract_paragraph_numbers` from `legal_patterns.py`: split on
newlines, match each line against `PARAGRAPH_NUMBER`, collect the
captured numbers in line order. -/
def extract_paragraph_numbers (s : String) : List Nat :=
  (splitNl s.toList).filterMap lineNum

/-! ### `clean_legal_text`

Six `re.sub` passes in the source's dictionary order, then `strip()`:
`\s+`→`' '`, `\bl\b`→`1`, `\bO\b`→`0`, `§§`→`§`, `\s+\.`→`.`, `\s+,`→`,`. -/

/-- `re.sub(r'\s+', ' ', text)`: each maximal whitespace run becomes one
space.  `pw` records whether the previous character was whitespace. -/
def collapseWsAux (pw : Bool) : List Char → List Char
  | [] => []
  | c :: rest =>
    if isSpaceC c then
      (if pw then [] else [' ']) ++ collapseWsAux true rest
    else c :: collapseWsAux false rest

/-- `re.sub(r'\bt\b', r, text)` for a single word character `t`: replace
each occurrence of `t` both of whose neighbours are non-word.  `pw` is
the wordness of the previous character of the original text. -/
def fixTok (t r : Char) (pw : Bool) : List Char → List Char
  | [] => []
  | c :: rest =>
    (if c == t && !pw && !nextWordB rest then r else c) ::
      fixTok t r (isWordC c) rest

/-- `re.sub(r'§§', '§', text)`: left-to-right non-overlapping collapse of
double section symbols. -/
def collapseSect : List Char → List Char
  | [] => []
  | [c] => [c]
  | c :: d :: rest =>
    if c == '§' && d == '§' then c :: collapseSect rest
    else c :: collapseSect (d :: rest)

/-- `re.sub(r'\s+' ++ tgt, tgt, text)` for a non-space literal `tgt`
(the source uses `\s+\.`→`.` and `\s+,`→`,`): a whitespace character is
deleted exactly when the first non-space character after it is `tgt`. -/
def dropWsBefore (tgt : Char) : List Char → List Char
  | [] => []
  | c :: rest =>
    if isSpaceC c && headIs (List.dropWhile isSpaceC rest) tgt then
      dropWsBefore tgt rest
    else c :: dropWsBefore tgt rest

/-- The whole `clean_legal_text` pipeline on character lists. -/
def cleanCore (l : List Char) : List Char :=
  pyStrip (dropWsBefore ','
    (dropWsBefore '.'
      (collapseSect
        (fixTok 'O' '0' false
          (fixTok 'l' '1' false
            (collapseWsAux false l))))))

/-- `clean_legal_text` from `legal_patterns.py`. -/
def clean_legal_text (s : String) : String :=
  (cleanCore s.toList).asString

/-! ### Side condition of the idempotence claim -/

/-- No three consecutive section symbols anywhere in the text (the side
condition of the idempotence claim). -/
def noTriple : List Char → Bool
  | [] => true
  | [_] => true
  | [_, _] => true
  | c :: d :: e :: rest =>
    !(c == '§' && d == '§' && e == '§') && noTriple (d :: e :: rest)

/-! ### Normal-form predicates for the `clean_legal_text` stages

Each stage of the pipeline is the identity exactly on texts in the
corresponding normal form; the second `clean_legal_text` pass leaves its
input unchanged because the first pass establishes every normal form
(given the `noTriple` side condition) and the later stages preserve the
earlier ones. -/

/-- Normal form of the whitespace-collapsing stage: every whitespace
character is a plain space not preceded by whitespace (`pw` records
whether the previous character was whitespace). -/
def wsNormal (pw : Bool) : List Char → Bool
  | [] => true
  | c :: rest =>
    (if isSpaceC c then c == ' ' && !pw else true) && wsNormal (isSpaceC c) rest

/-- No word-boundary-delimited occurrence of the single word character
`t` (`pw` is the wordness of the previous character). -/
def noLone (t : Char) (pw : Bool) : List Char → Bool
  | [] => true
  | c :: rest => !(c == t && !pw && !nextWordB rest) && noLone t (isWordC c) rest

/-- No doubled section symbol. -/
def noSS : List Char → Bool
  | [] => true
  | [_] => true
  | c :: d :: rest => !(c == '§' && d == '§') && noSS (d :: rest)

/-- No whitespace character immediately followed by `tgt`. -/
def noWsBefore (tgt : Char) : List Char → Bool
  | [] => true
  | [_] => true
  | c :: d :: rest => !(isSpaceC c && d == tgt) && noWsBefore tgt (d :: rest)

/-! ## General helper lemmas -/

theorem toNat_ofNat_of_lt {n : Nat} (h : n < 55296) : (Char.ofNat n).toNat = n := by
  rw [Char.ofNat, dif_pos (Or.inl h)]
  rfl

theorem lowerChar_idem (c : Char) : lowerChar (lowerChar c) = lowerChar c := by
  unfold lowerChar
  split
  · next h =>
    have h2 : (Char.ofNat (c.toNat + 32)).toNat = c.toNat + 32 :=
      toNat_ofNat_of_lt (by omega)
    rw [if_neg (by omega)]
  · rfl

theorem headNotSpace_dropWhile (l : List Char) :
    headNotSpace (List.dropWhile isSpaceC l) = true := by
  induction l with
  | nil => rfl
  | cons c r ih =>
    by_cases h : isSpaceC c = true
    · rw [List.dropWhile_cons_of_pos h]; exact ih
    · rw [List.dropWhile_cons_of_neg (by simpa using h)]
      simpa [headNotSpace] using h

theorem stripR_decomp (l : List Char) :
    ∃ ss, l = stripR l ++ ss ∧ ss.all isSpaceC = true := by
  refine ⟨(List.takeWhile isSpaceC l.reverse).reverse, ?_, ?_⟩
  · conv_lhs => rw [← List.reverse_reverse l,
      ← List.takeWhile_append_dropWhile (p := isSpaceC) (l := l.reverse)]
    rw [List.reverse_append]
    rfl
  · rw [List.all_reverse]
    exact List.all_takeWhile

theorem headNotSpace_stripR (l : List Char) (h : headNotSpace l = true) :
    headNotSpace (stripR l) = true := by
  obtain ⟨ss, hd, _⟩ := stripR_decomp l
  cases hsr : stripR l with
  | nil => rfl
  | cons c r =>
    rw [hsr] at hd
    cases l with
    | nil => simp at hd
    | cons c0 l0 =>
      have : c0 = c := by simpa using congrArg List.head? hd
      subst this
      simpa [headNotSpace] using h

theorem lastNotSpace_stripR (l : List Char) : lastNotSpace (stripR l) = true := by
  unfold lastNotSpace stripR
  rw [List.reverse_reverse]
  exact headNotSpace_dropWhile _

/-! ## Claim theorems (first group) -/

/-- C9: each of the seven exported functions, applied to the empty string,
returns the documented empty or sentinel value (in this embedding all
functions are total by construction, so "never raises" is witnessed by
the values themselves). -/
theorem all_functions_total_on_empty :
    extract_document_type "" = "unknown" ∧
    extract_party_names "" = ("", "") ∧
    extract_paragraph_numbers "" = [] ∧
    clean_legal_text "" = "" ∧
    normalize_court_name "" = "" ∧
    format_legal_date "" = "" ∧
    is_legal_entity "" = false := by
  decide

/-- C1: the specification requires `is_legal_entity` to detect the seven
corporate-suffix tokens as whole words, with
`is_legal_entity "Acme Corp. filed suit" = true`; the token `Corp.` does
occur as a whole word there (`claimEntity`), but the compiled pattern
places `\b` after the token's final period, so the code returns `false`
on that very input (and `false` on the no-entity example, as specified). -/
theorem corporation_word_boundary_divergence :
    claimEntity "Acme Corp. filed suit" = true ∧
    is_legal_entity "Acme Corp. filed suit" = false ∧
    is_legal_entity "no entity mentioned" = false := by
  decide

/-- C7: `clean_legal_text` is exactly the six-stage pipeline (collapse
whitespace runs; `l`→`1` and `O`→`0` on word-boundary-delimited tokens;
`§§`→`§`; drop whitespace before periods and before commas) followed by a
final strip, and on the specification's example it yields
`"too much space."`. -/
theorem clean_legal_text_pipeline :
    (∀ s : String, clean_legal_text s =
      (pyStrip (dropWsBefore ','
        (dropWsBefore '.'
          (collapseSect
            (fixTok 'O' '0' false
              (fixTok 'l' '1' false
                (collapseWsAux false s.toList))))))).asString) ∧
    clean_legal_text "too   much   space ." = "too much space." ∧
    clean_legal_text "O l" = "0 1" ∧
    clean_legal_text "§§" = "§" ∧
    clean_legal_text "a , b ." = "a, b." := by
  refine ⟨fun s => rfl, by decide, by decide, by decide, by decide⟩

/-- C8: `extract_paragraph_numbers` maps the newline-split lines through
the anchored `[\d+]` pattern in line order, keeping duplicates and the
original order, and on the specification's example yields `[1, 2, 3]`. -/
theorem extract_paragraph_numbers_lines :
    (∀ s : String, extract_paragraph_numbers s = (splitNl s.toList).filterMap lineNum) ∧
    extract_paragraph_numbers "[1] First\n[2] Second\nNot numbered\n[3] Third" = [1, 2, 3] ∧
    extract_paragraph_numbers "[2] a\n[2] b" = [2, 2] ∧
    extract_paragraph_numbers "[3] x\n[1] y" = [3, 1] := by
  refine ⟨fun s => rfl, by decide, by decide, by decide⟩

/-- C5: `extract_document_type` matches keywords against the lower-cased
text in table order (so the doubly-listed keyword "petition" classifies
as "motion", the earlier type), and is therefore case-insensitive:
lower-casing the input first never changes the result. -/
theorem extract_document_type_case_insensitive :
    extract_document_type "MOTION to dismiss" = "motion" ∧
    extract_document_type "motion to dismiss" = "motion" ∧
    extract_document_type "petition" = "motion" ∧
    (∀ t : String, extract_document_type t = extract_document_type (pyLower t)) := by
  refine ⟨by decide, by decide, by decide, fun t => ?_⟩
  have h : (pyLower t).toList.map lowerChar = t.toList.map lowerChar := by
    show (t.toList.map lowerChar).map lowerChar = t.toList.map lowerChar
    rw [List.map_map]
    exact List.map_congr_left (fun a _ => lowerChar_idem a)
  unfold extract_document_type
  rw [h]

/-- C6: `normalize_court_name` returns the table value verbatim on an
exact key match and otherwise rewrites the whitespace-split tokens
individually, rejoined by single spaces; multi-word keys therefore only
resolve via the exact path (so `"Cal. S. Ct."` is left unchanged). -/
theorem normalize_court_name_table :
    normalize_court_name "9th Cir." = "Ninth Circuit" ∧
    normalize_court_name "foo bar" = "foo bar" ∧
    normalize_court_name "S. Ct." = "Supreme Court" ∧
    normalize_court_name "Cal. S. Ct." = "Cal. S. Ct." ∧
    (∀ s v, COURT_ABBREVIATIONS.lookup s = some v → normalize_court_name s = v) ∧
    (∀ s, COURT_ABBREVIATIONS.lookup s = none →
      normalize_court_name s =
        (List.intercalate [' ']
          ((splitWsAux [] s.toList).map fun w =>
            match COURT_ABBREVIATIONS.lookup w.asString with
            | some v => v.toList
            | none => w)).asString) := by
  refine ⟨by decide, by decide, by decide, by decide, fun s v h => ?_, fun s h => ?_⟩
  · unfold normalize_court_name
    rw [h]
  · unfold normalize_court_name
    rw [h]

/-- C6 witness: the exact-match tier applied at a concrete key. -/
theorem normalize_court_name_table_witness :
    normalize_court_name "2d Cir." = "Second Circuit" :=
  normalize_court_name_table.2.2.2.2.1 "2d Cir." "Second Circuit" (by decide)

/-- C4: `extract_party_names` tries the `PARTY_NAME` pattern first and
returns the stripped groups; otherwise splits at the first `" v. "`,
stripping both parts; otherwise returns the whole input and the empty
string, with the specified results on the two specification examples. -/
theorem extract_party_names_tiers :
    extract_party_names "Smith v. Jones" = ("Smith", "Jones") ∧
    extract_party_names "no separator here" = ("no separator here", "") ∧
    (∀ s p d, partyMatch s.toList = some (p, d) →
      extract_party_names s = ((pyStrip p).asString, (pyStrip d).asString)) ∧
    (∀ s a b, partyMatch s.toList = none → splitOnce vSep s.toList = some (a, b) →
      extract_party_names s = ((pyStrip a).asString, (pyStrip b).asString)) ∧
    (∀ s, partyMatch s.toList = none → splitOnce vSep s.toList = none →
      extract_party_names s = (s, "")) := by
  refine ⟨by decide, by decide, fun s p d h => ?_, fun s a b h1 h2 => ?_,
    fun s h1 h2 => ?_⟩
  · unfold extract_party_names
    rw [h]
  · unfold extract_party_names
    rw [h1, h2]
  · unfold extract_party_names
    rw [h1, h2]

/-- C4 witness: the fallback split tier applied at a concrete input whose
lower-case start makes the anchored pattern fail. -/
theorem extract_party_names_tiers_witness :
    extract_party_names "x v. Y" = ((pyStrip "x".toList).asString, (pyStrip "Y".toList).asString) :=
  extract_party_names_tiers.2.2.2.1 "x v. Y" "x".toList "Y".toList (by decide) (by decide)

/-- C10: `format_legal_date` only strips: the input decomposes as
whitespace, the returned text verbatim, whitespace, and the returned text
neither starts nor ends with whitespace — no other transformation. -/
theorem format_legal_date_strip_only :
    ∀ s : String, ∃ pre post : List Char,
      s.toList = pre ++ (format_legal_date s).toList ++ post ∧
      pre.all isSpaceC = true ∧ post.all isSpaceC = true ∧
      headNotSpace (format_legal_date s).toList = true ∧
      lastNotSpace (format_legal_date s).toList = true := by
  intro s
  have htl : (format_legal_date s).toList = pyStrip s.toList := rfl
  obtain ⟨ss, hd, hall⟩ := stripR_decomp (List.dropWhile isSpaceC s.toList)
  refine ⟨List.takeWhile isSpaceC s.toList, ss, ?_, List.all_takeWhile, hall, ?_, ?_⟩
  · rw [htl]
    unfold pyStrip
    rw [List.append_assoc, ← hd, List.takeWhile_append_dropWhile]
  · rw [htl]
    exact headNotSpace_stripR _ (headNotSpace_dropWhile _)
  · rw [htl]
    exact lastNotSpace_stripR _

/-! ## The `CORPORATION` search: no match without a word character after
a dotted suffix (claim C2) -/

theorem bdryMatchAt_false_of_last {pw : Bool} {t cs : List Char}
    (hlast : lastWordB t = false)
    (hnext : t.isPrefixOf cs = true → nextWordB (cs.drop t.length) = false) :
    bdryMatchAt pw t cs = false := by
  by_cases hp : t.isPrefixOf cs = true
  · simp [bdryMatchAt, hp, hlast, hnext hp]
  · simp only [Bool.not_eq_true] at hp
    simp [bdryMatchAt, hp]

theorem bdryMatchAt_false_of_not_pre {pw : Bool} {t cs : List Char}
    (hp : t.isPrefixOf cs = false) : bdryMatchAt pw t cs = false := by
  simp [bdryMatchAt, hp]

theorem dotted_any_false {c : Char} {rest : List Char} {pw : Bool} {t : List Char}
    (ht : t ∈ dottedCorpToks)
    (h1 : ∀ t ∈ dottedCorpToks, ∀ j ≤ (c :: rest).length,
      t.isPrefixOf ((c :: rest).drop j) = true →
      nextWordB ((c :: rest).drop (j + t.length)) = false)
    (hlast : lastWordB t = false) :
    bdryMatchAt pw t (c :: rest) = false := by
  apply bdryMatchAt_false_of_last hlast
  intro hp
  have h := h1 t ht 0 (Nat.zero_le _) (by simpa using hp)
  simpa using h

theorem undotted_any_false {c : Char} {rest : List Char} {pw : Bool} {t : List Char}
    (ht : t ∈ undottedCorpToks)
    (h2 : ∀ t ∈ undottedCorpToks, ∀ j ≤ (c :: rest).length,
      t.isPrefixOf ((c :: rest).drop j) = false) :
    bdryMatchAt pw t (c :: rest) = false :=
  bdryMatchAt_false_of_not_pre (by simpa using h2 t ht 0 (Nat.zero_le _))

theorem corpSearchAux_eq_false (cs : List Char) : ∀ pw : Bool,
    (∀ t ∈ dottedCorpToks, ∀ j ≤ cs.length, t.isPrefixOf (cs.drop j) = true →
      nextWordB (cs.drop (j + t.length)) = false) →
    (∀ t ∈ undottedCorpToks, ∀ j ≤ cs.length, t.isPrefixOf (cs.drop j) = false) →
    corpSearchAux pw cs = false := by
  induction cs with
  | nil =>
    intro pw _ _
    cases pw <;> decide
  | cons c rest ih =>
    intro pw h1 h2
    show ((corpToks.any fun t => bdryMatchAt pw t (c :: rest)) ||
      corpSearchAux (isWordC c) rest) = false
    rw [Bool.or_eq_false_iff]
    constructor
    · rw [List.any_eq_false]
      intro t ht
      rw [Bool.not_eq_true]
      simp only [corpToks, List.mem_cons, List.not_mem_nil, or_false] at ht
      rcases ht with rfl | rfl | rfl | rfl | rfl | rfl | rfl
      all_goals first
        | exact dotted_any_false (by decide) h1 (by decide)
        | exact undotted_any_false (by decide) h2
    · apply ih (isWordC c)
      · intro t ht j hj hp
        have h := h1 t ht (j + 1) (by simp [List.length_cons]; omega)
          (by simpa [List.drop_succ_cons] using hp)
        have e : j + 1 + t.length = (j + t.length) + 1 := by omega
        rw [e, List.drop_succ_cons] at h
        exact h
      · intro t ht j hj
        have h := h2 t ht (j + 1) (by simp [List.length_cons]; omega)
        rwa [List.drop_succ_cons] at h

/-- C2: `is_legal_entity` is false whenever every occurrence of a
period-terminated suffix token (`Inc.`, `L.L.C.`, `Corp.`, `Co.`) is
followed by a non-word character or the end of the string and no
undotted token (`LLC`, `Corporation`, `Company`) occurs — the `\b` after
the final period only matches before a word character.  In particular
`"Acme Inc."` is rejected while `"Acme LLC"` is accepted. -/
theorem is_legal_entity_dotted_suffix :
    (∀ s : String,
      (∀ t ∈ dottedCorpToks, ∀ j ≤ s.toList.length,
        t.isPrefixOf (s.toList.drop j) = true →
        nextWordB (s.toList.drop (j + t.length)) = false) →
      (∀ t ∈ undottedCorpToks, ∀ j ≤ s.toList.length,
        t.isPrefixOf (s.toList.drop j) = false) →
      is_legal_entity s = false) ∧
    is_legal_entity "Acme Inc." = false ∧
    is_legal_entity "Acme LLC" = true :=
  ⟨fun s h1 h2 => corpSearchAux_eq_false s.toList false h1 h2, by decide, by decide⟩

/-- C2 witness: the hypotheses hold for a text whose dotted suffix tokens
are all followed by a space, and the search indeed fails. -/
theorem is_legal_entity_dotted_suffix_witness :
    is_legal_entity "Inc. and Co. here" = false :=
  is_legal_entity_dotted_suffix.1 "Inc. and Co. here" (by decide) (by decide)

/-! ## Stage identity lemmas: each stage fixes its normal form -/

theorem space_not_word {c : Char} (h : isSpaceC c = true) : isWordC c = false := by
  simp only [isSpaceC, decide_eq_true_eq] at h
  simp only [isWordC, decide_eq_false_iff_not]
  omega

theorem collapseWsAux_id (cs : List Char) :
    ∀ b, wsNormal b cs = true → collapseWsAux b cs = cs := by
  induction cs with
  | nil => intro b _; rfl
  | cons c rest ih =>
    intro b h
    simp only [wsNormal, Bool.and_eq_true] at h
    obtain ⟨h1, h2⟩ := h
    by_cases hs : isSpaceC c = true
    · rw [if_pos hs, Bool.and_eq_true] at h1
      have hc : c = ' ' := by simpa using h1.1
      have hb : b = false := by simpa using h1.2
      subst hc; subst hb
      rw [hs] at h2
      have hsp : isSpaceC ' ' = true := by decide
      simp only [collapseWsAux, hsp, if_true, Bool.false_eq_true, if_false,
        List.singleton_append]
      rw [ih true h2]
    · have hs' : isSpaceC c = false := by simpa using hs
      rw [hs'] at h2
      simp only [collapseWsAux, hs', Bool.false_eq_true, if_false]
      rw [ih false h2]

theorem fixTok_id (t r : Char) (cs : List Char) :
    ∀ pw, noLone t pw cs = true → fixTok t r pw cs = cs := by
  induction cs with
  | nil => intro pw _; rfl
  | cons c rest ih =>
    intro pw h
    simp only [noLone, Bool.and_eq_true] at h
    obtain ⟨h1, h2⟩ := h
    rw [Bool.not_eq_true'] at h1
    simp only [fixTok, h1, Bool.false_eq_true, if_false]
    rw [ih _ h2]

theorem collapseSect_id : ∀ cs : List Char, noSS cs = true → collapseSect cs = cs
  | [], _ => rfl
  | [c], _ => rfl
  | c :: d :: rest, h => by
    rw [noSS, Bool.and_eq_true] at h
    obtain ⟨h1, h2⟩ := h
    rw [Bool.not_eq_true'] at h1
    simp only [collapseSect, h1, Bool.false_eq_true, if_false]
    rw [collapseSect_id (d :: rest) h2]

theorem noWsBefore_tail (tgt : Char) :
    ∀ (c : Char) (rest : List Char), noWsBefore tgt (c :: rest) = true →
      noWsBefore tgt rest = true
  | _, [], _ => rfl
  | c, d :: rest2, h => by
    rw [noWsBefore, Bool.and_eq_true] at h
    exact h.2

theorem noWsBefore_head_dropWhile (tgt : Char) :
    ∀ l : List Char, noWsBefore tgt l = true →
      headIs (List.dropWhile isSpaceC l) tgt = true → headIs l tgt = true
  | [], _, h2 => by simp [headIs] at h2
  | [c], _, h2 => by
    by_cases hs : isSpaceC c = true
    · rw [List.dropWhile_cons_of_pos hs] at h2
      simp [headIs] at h2
    · rwa [List.dropWhile_cons_of_neg (by simp [hs])] at h2
  | c :: d :: rest, h, h2 => by
    by_cases hs : isSpaceC c = true
    · rw [List.dropWhile_cons_of_pos hs] at h2
      rw [noWsBefore, Bool.and_eq_true] at h
      have hd : headIs (d :: rest) tgt = true :=
        noWsBefore_head_dropWhile tgt (d :: rest) h.2 h2
      simp only [headIs] at hd
      have h1 := h.1
      rw [Bool.not_eq_true'] at h1
      rw [hs, hd] at h1
      simp at h1
    · rwa [List.dropWhile_cons_of_neg (by simp [hs])] at h2

theorem dropWsBefore_id (tgt : Char) :
    ∀ cs : List Char, noWsBefore tgt cs = true → dropWsBefore tgt cs = cs
  | [], _ => rfl
  | c :: rest, h => by
    by_cases hcond : (isSpaceC c && headIs (List.dropWhile isSpaceC rest) tgt) = true
    · exfalso
      rw [Bool.and_eq_true] at hcond
      obtain ⟨hs, hdw⟩ := hcond
      cases rest with
      | nil => simp [headIs] at hdw
      | cons d rest2 =>
        rw [noWsBefore, Bool.and_eq_true] at h
        have hd : headIs (d :: rest2) tgt = true :=
          noWsBefore_head_dropWhile tgt (d :: rest2) h.2 hdw
        simp only [headIs] at hd
        have h1 := h.1
        rw [Bool.not_eq_true'] at h1
        rw [hs, hd] at h1
        simp at h1
    · have hcond' : (isSpaceC c && headIs (List.dropWhile isSpaceC rest) tgt) = false := by
        simpa using hcond
      simp only [dropWsBefore, hcond', Bool.false_eq_true, if_false]
      rw [dropWsBefore_id tgt rest (noWsBefore_tail tgt c rest h)]

theorem dropWhile_id_of_headNotSpace {l : List Char} (h : headNotSpace l = true) :
    List.dropWhile isSpaceC l = l := by
  cases l with
  | nil => rfl
  | cons c r =>
    simp only [headNotSpace, Bool.not_eq_true'] at h
    rw [List.dropWhile_cons_of_neg (by simp [h])]

theorem stripR_id {l : List Char} (h : lastNotSpace l = true) : stripR l = l := by
  unfold lastNotSpace at h
  unfold stripR
  rw [dropWhile_id_of_headNotSpace h, List.reverse_reverse]

theorem pyStrip_id {l : List Char} (h1 : headNotSpace l = true)
    (h2 : lastNotSpace l = true) : pyStrip l = l := by
  unfold pyStrip
  rw [dropWhile_id_of_headNotSpace h1, stripR_id h2]

/-! ## Establishment lemmas: each stage produces its normal form -/

theorem wsNormal_collapseWsAux (cs : List Char) :
    ∀ b, wsNormal b (collapseWsAux b cs) = true := by
  induction cs with
  | nil => intro b; rfl
  | cons c rest ih =>
    intro b
    by_cases hs : isSpaceC c = true
    · simp only [collapseWsAux, hs, if_true]
      cases b with
      | true => simpa using ih true
      | false =>
        have hsp : isSpaceC ' ' = true := by decide
        simp only [Bool.false_eq_true, if_false, List.singleton_append, wsNormal, hsp,
          if_true]
        simp [ih true]
    · have hs' : isSpaceC c = false := by simpa using hs
      simp only [collapseWsAux, hs', Bool.false_eq_true, if_false, wsNormal]
      simp [hs', ih false]

theorem nextWordB_fixTok (t r : Char) (pw : Bool) (cs : List Char)
    (hw : isWordC r = isWordC t) : nextWordB (fixTok t r pw cs) = nextWordB cs := by
  cases cs with
  | nil => rfl
  | cons c rest =>
    have hx : fixTok t r pw (c :: rest) =
        (if c == t && !pw && !nextWordB rest then r else c) :: fixTok t r (isWordC c) rest :=
      rfl
    rw [hx]
    cases hc : (c == t && !pw && !nextWordB rest) with
    | false =>
      rw [if_neg (by simp)]
      rfl
    | true =>
      rw [if_pos rfl]
      have hct : c = t := by
        by_contra hne
        have hf : (c == t) = false := by simpa using hne
        rw [hf] at hc
        simp at hc
      show isWordC r = isWordC c
      rw [hw, hct]

theorem noLone_fixTok (t r : Char) (hrt : (r == t) = false) (hw : isWordC r = isWordC t)
    (cs : List Char) : ∀ pw, noLone t pw (fixTok t r pw cs) = true := by
  induction cs with
  | nil => intro pw; rfl
  | cons c rest ih =>
    intro pw
    have hx : fixTok t r pw (c :: rest) =
        (if c == t && !pw && !nextWordB rest then r else c) :: fixTok t r (isWordC c) rest :=
      rfl
    rw [hx]
    cases hc : (c == t && !pw && !nextWordB rest) with
    | true =>
      rw [if_pos rfl]
      show (!(r == t && !pw && !nextWordB (fixTok t r (isWordC c) rest)) &&
        noLone t (isWordC r) (fixTok t r (isWordC c) rest)) = true
      rw [Bool.and_eq_true]
      constructor
      · rw [hrt]
        simp
      · have hct : c = t := by
          by_contra hne
          have hf : (c == t) = false := by simpa using hne
          rw [hf] at hc
          simp at hc
        have hwc : isWordC r = isWordC c := by rw [hw, hct]
        rw [hwc]
        exact ih (isWordC c)
    | false =>
      rw [if_neg (by simp)]
      show (!(c == t && !pw && !nextWordB (fixTok t r (isWordC c) rest)) &&
        noLone t (isWordC c) (fixTok t r (isWordC c) rest)) = true
      rw [Bool.and_eq_true]
      refine ⟨?_, ih (isWordC c)⟩
      rw [nextWordB_fixTok t r (isWordC c) rest hw]
      simp [hc]

theorem collapseSect_cons : ∀ (x : Char) (xs : List Char),
    ∃ ys, collapseSect (x :: xs) = x :: ys
  | _, [] => ⟨[], rfl⟩
  | x, y :: xs => by
    by_cases h : (x == '§' && y == '§') = true
    · refine ⟨collapseSect xs, ?_⟩
      show (if x == '§' && y == '§' then x :: collapseSect xs
        else x :: collapseSect (y :: xs)) = x :: collapseSect xs
      rw [if_pos h]
    · refine ⟨collapseSect (y :: xs), ?_⟩
      show (if x == '§' && y == '§' then x :: collapseSect xs
        else x :: collapseSect (y :: xs)) = x :: collapseSect (y :: xs)
      rw [if_neg h]

theorem nextWordB_collapseSect (cs : List Char) :
    nextWordB (collapseSect cs) = nextWordB cs := by
  cases cs with
  | nil => rfl
  | cons x xs =>
    obtain ⟨ys, hy⟩ := collapseSect_cons x xs
    rw [hy]
    rfl

theorem headIs_collapseSect (cs : List Char) (d : Char) :
    headIs (collapseSect cs) d = headIs cs d := by
  cases cs with
  | nil => rfl
  | cons x xs =>
    obtain ⟨ys, hy⟩ := collapseSect_cons x xs
    rw [hy]
    rfl

theorem noTriple_tail : ∀ (c : Char) (rest : List Char),
    noTriple (c :: rest) = true → noTriple rest = true
  | _, [], _ => rfl
  | _, [_], _ => rfl
  | _, _ :: _ :: _, h => by
    rw [noTriple, Bool.and_eq_true] at h
    exact h.2

theorem noSS_collapseSect : ∀ cs : List Char,
    noTriple cs = true → noSS (collapseSect cs) = true
  | [], _ => rfl
  | [_], _ => rfl
  | c :: d :: rest, h => by
    cases hcd : (c == '§' && d == '§') with
    | true =>
      have hx : collapseSect (c :: d :: rest) = c :: collapseSect rest := by
        show (if c == '§' && d == '§' then c :: collapseSect rest
          else c :: collapseSect (d :: rest)) = c :: collapseSect rest
        rw [if_pos hcd]
      rw [hx]
      cases rest with
      | nil => rfl
      | cons e rest2 =>
        obtain ⟨ys, hy⟩ := collapseSect_cons e rest2
        rw [hy, noSS, Bool.and_eq_true]
        rw [noTriple, Bool.and_eq_true] at h
        rw [Bool.and_eq_true] at hcd
        have h1 := h.1
        rw [Bool.not_eq_true'] at h1
        have he : (e == '§') = false := by
          by_contra hne
          have he' : (e == '§') = true := by simpa using hne
          rw [hcd.1, hcd.2, he'] at h1
          simp at h1
        constructor
        · simp [he]
        · rw [← hy]
          exact noSS_collapseSect (e :: rest2) (noTriple_tail d (e :: rest2) h.2)
    | false =>
      have hx : collapseSect (c :: d :: rest) = c :: collapseSect (d :: rest) := by
        show (if c == '§' && d == '§' then c :: collapseSect rest
          else c :: collapseSect (d :: rest)) = c :: collapseSect (d :: rest)
        rw [if_neg (by simp [hcd])]
      rw [hx]
      obtain ⟨ys, hy⟩ := collapseSect_cons d rest
      rw [hy, noSS, Bool.and_eq_true]
      constructor
      · simp [hcd]
      · rw [← hy]
        exact noSS_collapseSect (d :: rest) (noTriple_tail c (d :: rest) h)

theorem headIs_dropWsBefore_self (tgt : Char) (htgt : isSpaceC tgt = false) :
    ∀ l : List Char, headIs (dropWsBefore tgt l) tgt = true →
      headIs (List.dropWhile isSpaceC l) tgt = true
  | [], h => by simp [dropWsBefore, headIs] at h
  | c :: rest, h => by
    by_cases hcond : (isSpaceC c && headIs (List.dropWhile isSpaceC rest) tgt) = true
    · have hx : dropWsBefore tgt (c :: rest) = dropWsBefore tgt rest := by
        show (if isSpaceC c && headIs (List.dropWhile isSpaceC rest) tgt then
          dropWsBefore tgt rest else c :: dropWsBefore tgt rest) = dropWsBefore tgt rest
        rw [if_pos hcond]
      rw [hx] at h
      have ih := headIs_dropWsBefore_self tgt htgt rest h
      rw [Bool.and_eq_true] at hcond
      rw [List.dropWhile_cons_of_pos hcond.1]
      exact ih
    · have hx : dropWsBefore tgt (c :: rest) = c :: dropWsBefore tgt rest := by
        show (if isSpaceC c && headIs (List.dropWhile isSpaceC rest) tgt then
          dropWsBefore tgt rest else c :: dropWsBefore tgt rest) = c :: dropWsBefore tgt rest
        rw [if_neg hcond]
      rw [hx] at h
      simp only [headIs] at h
      have hct : c = tgt := by simpa using h
      subst hct
      rw [List.dropWhile_cons_of_neg (by simp [htgt])]
      simp [headIs]

theorem noWsBefore_dropWsBefore (tgt : Char) (htgt : isSpaceC tgt = false) :
    ∀ cs : List Char, noWsBefore tgt (dropWsBefore tgt cs) = true
  | [] => rfl
  | c :: rest => by
    by_cases hcond : (isSpaceC c && headIs (List.dropWhile isSpaceC rest) tgt) = true
    · have hx : dropWsBefore tgt (c :: rest) = dropWsBefore tgt rest := by
        show (if isSpaceC c && headIs (List.dropWhile isSpaceC rest) tgt then
          dropWsBefore tgt rest else c :: dropWsBefore tgt rest) = dropWsBefore tgt rest
        rw [if_pos hcond]
      rw [hx]
      exact noWsBefore_dropWsBefore tgt htgt rest
    · have hx : dropWsBefore tgt (c :: rest) = c :: dropWsBefore tgt rest := by
        show (if isSpaceC c && headIs (List.dropWhile isSpaceC rest) tgt then
          dropWsBefore tgt rest else c :: dropWsBefore tgt rest) = c :: dropWsBefore tgt rest
        rw [if_neg hcond]
      rw [hx]
      cases hdr : dropWsBefore tgt rest with
      | nil => rfl
      | cons d ds =>
        rw [noWsBefore, Bool.and_eq_true]
        constructor
        · by_cases hs : isSpaceC c = true
          · by_cases hd : (d == tgt) = true
            · exfalso
              have hh : headIs (dropWsBefore tgt rest) tgt = true := by
                rw [hdr]
                simpa [headIs] using hd
              have hdw := headIs_dropWsBefore_self tgt htgt rest hh
              apply hcond
              rw [Bool.and_eq_true]
              exact ⟨hs, hdw⟩
            · have hd' : (d == tgt) = false := by simpa using hd
              simp [hd']
          · have hs' : isSpaceC c = false := by simpa using hs
            simp [hs']
        · rw [← hdr]
          exact noWsBefore_dropWsBefore tgt htgt rest

/-! ## Preservation lemmas: later stages keep earlier normal forms -/

theorem word_not_space {c : Char} (h : isWordC c = true) : isSpaceC c = false := by
  simp only [isWordC, decide_eq_true_eq] at h
  simp only [isSpaceC, decide_eq_false_iff_not]
  omega

theorem beq_false_of_space {a b : Char} (ha : isSpaceC a = true)
    (hb : isSpaceC b = false) : (a == b) = false := by
  by_contra h
  have hab : a = b := by simpa using h
  rw [hab, hb] at ha
  simp at ha

theorem wsNormal_true_mono (cs : List Char) (b : Bool) :
    wsNormal true cs = true → wsNormal b cs = true := by
  cases cs with
  | nil => intro _; rfl
  | cons c rest =>
    intro h
    rw [wsNormal, Bool.and_eq_true] at h ⊢
    refine ⟨?_, h.2⟩
    by_cases hs : isSpaceC c = true
    · rw [if_pos hs] at h
      have := h.1
      simp at this
    · rw [if_neg hs]

theorem noLone_false_mono (t : Char) (cs : List Char) (pw : Bool) :
    noLone t false cs = true → noLone t pw cs = true := by
  cases cs with
  | nil => intro _; rfl
  | cons c rest =>
    intro h
    rw [noLone, Bool.and_eq_true] at h ⊢
    refine ⟨?_, h.2⟩
    have h1 := h.1
    rw [Bool.not_eq_true'] at h1 ⊢
    cases pw with
    | false => exact h1
    | true => simp

theorem headIs_dropWsBefore (tgt d : Char) (hd : isSpaceC d = false) :
    ∀ l : List Char, headIs (dropWsBefore tgt l) d = true →
      headIs l d = true ∨ d = tgt
  | [], h => by simp [dropWsBefore, headIs] at h
  | c :: rest, h => by
    by_cases hcond : (isSpaceC c && headIs (List.dropWhile isSpaceC rest) tgt) = true
    · have hx : dropWsBefore tgt (c :: rest) = dropWsBefore tgt rest := by
        show (if isSpaceC c && headIs (List.dropWhile isSpaceC rest) tgt then
          dropWsBefore tgt rest else c :: dropWsBefore tgt rest) = dropWsBefore tgt rest
        rw [if_pos hcond]
      rw [hx] at h
      rcases headIs_dropWsBefore tgt d hd rest h with hrest | hdt
      · right
        rw [Bool.and_eq_true] at hcond
        cases rest with
        | nil => simp [headIs] at hrest
        | cons e rest2 =>
          simp only [headIs] at hrest
          have he : e = d := by simpa using hrest
          subst he
          rw [List.dropWhile_cons_of_neg (by simp [hd])] at hcond
          have h2 := hcond.2
          simp only [headIs] at h2
          simpa using h2
      · right
        exact hdt
    · have hx : dropWsBefore tgt (c :: rest) = c :: dropWsBefore tgt rest := by
        show (if isSpaceC c && headIs (List.dropWhile isSpaceC rest) tgt then
          dropWsBefore tgt rest else c :: dropWsBefore tgt rest) = c :: dropWsBefore tgt rest
        rw [if_neg hcond]
      rw [hx] at h
      left
      exact h

theorem nextWordB_dropWsBefore (tgt : Char) (hw : isWordC tgt = false) :
    ∀ l : List Char, nextWordB (dropWsBefore tgt l) = nextWordB l
  | [] => rfl
  | c :: rest => by
    by_cases hcond : (isSpaceC c && headIs (List.dropWhile isSpaceC rest) tgt) = true
    · have hx : dropWsBefore tgt (c :: rest) = dropWsBefore tgt rest := by
        show (if isSpaceC c && headIs (List.dropWhile isSpaceC rest) tgt then
          dropWsBefore tgt rest else c :: dropWsBefore tgt rest) = dropWsBefore tgt rest
        rw [if_pos hcond]
      rw [hx, nextWordB_dropWsBefore tgt hw rest]
      rw [Bool.and_eq_true] at hcond
      have hcw : isWordC c = false := space_not_word hcond.1
      cases rest with
      | nil =>
        show nextWordB [] = nextWordB [c]
        show false = isWordC c
        exact hcw.symm
      | cons e rest2 =>
        show isWordC e = isWordC c
        by_cases hse : isSpaceC e = true
        · rw [space_not_word hse, hcw]
        · rw [List.dropWhile_cons_of_neg (by simp [hse])] at hcond
          have h2 := hcond.2
          simp only [headIs] at h2
          have het : e = tgt := by simpa using h2
          rw [het, hw, hcw]
    · have hx : dropWsBefore tgt (c :: rest) = c :: dropWsBefore tgt rest := by
        show (if isSpaceC c && headIs (List.dropWhile isSpaceC rest) tgt then
          dropWsBefore tgt rest else c :: dropWsBefore tgt rest) = c :: dropWsBefore tgt rest
        rw [if_neg hcond]
      rw [hx]
      rfl

theorem wsNormal_fixTok (t r : Char) (ht : isSpaceC t = false) (hr : isSpaceC r = false)
    (cs : List Char) : ∀ b pw, wsNormal b cs = true → wsNormal b (fixTok t r pw cs) = true := by
  induction cs with
  | nil => intro b pw _; rfl
  | cons c rest ih =>
    intro b pw h
    rw [wsNormal, Bool.and_eq_true] at h
    obtain ⟨h1, h2⟩ := h
    cases hc : (c == t && !pw && !nextWordB rest) with
    | true =>
      have hx : fixTok t r pw (c :: rest) = r :: fixTok t r (isWordC c) rest := by
        show (if c == t && !pw && !nextWordB rest then r else c) :: _ = _
        rw [if_pos hc]
      rw [hx, wsNormal, Bool.and_eq_true]
      have hct : c = t := by
        by_contra hne
        have hf : (c == t) = false := by simpa using hne
        rw [hf] at hc
        simp at hc
      constructor
      · rw [if_neg (by simp [hr])]
      · rw [hr]
        rw [hct, ht] at h2
        exact ih false (isWordC c) h2
    | false =>
      have hx : fixTok t r pw (c :: rest) = c :: fixTok t r (isWordC c) rest := by
        show (if c == t && !pw && !nextWordB rest then r else c) :: _ = _
        rw [if_neg (by simp [hc])]
      rw [hx, wsNormal, Bool.and_eq_true]
      exact ⟨h1, ih (isSpaceC c) (isWordC c) h2⟩

theorem wsNormal_collapseSect : ∀ cs : List Char, ∀ b,
    wsNormal b cs = true → wsNormal b (collapseSect cs) = true
  | [], _, h => h
  | [_], _, h => h
  | c :: d :: rest, b, h => by
    cases hcd : (c == '§' && d == '§') with
    | true =>
      have hx : collapseSect (c :: d :: rest) = c :: collapseSect rest := by
        show (if c == '§' && d == '§' then c :: collapseSect rest
          else c :: collapseSect (d :: rest)) = c :: collapseSect rest
        rw [if_pos hcd]
      rw [hx]
      rw [Bool.and_eq_true] at hcd
      have hcs : c = '§' := by simpa using hcd.1
      have hds : d = '§' := by simpa using hcd.2
      rw [wsNormal, Bool.and_eq_true] at h
      obtain ⟨hh1, h⟩ := h
      rw [wsNormal, Bool.and_eq_true] at h
      obtain ⟨_, h⟩ := h
      rw [wsNormal, Bool.and_eq_true]
      refine ⟨hh1, ?_⟩
      rw [hcs]
      rw [hds] at h
      exact wsNormal_collapseSect rest (isSpaceC '§') h
    | false =>
      have hx : collapseSect (c :: d :: rest) = c :: collapseSect (d :: rest) := by
        show (if c == '§' && d == '§' then c :: collapseSect rest
          else c :: collapseSect (d :: rest)) = c :: collapseSect (d :: rest)
        rw [if_neg (by simp [hcd])]
      rw [hx]
      rw [wsNormal, Bool.and_eq_true] at h ⊢
      exact ⟨h.1, wsNormal_collapseSect (d :: rest) (isSpaceC c) h.2⟩

theorem wsNormal_dropWsBefore (tgt : Char) : ∀ cs : List Char, ∀ b,
    wsNormal b cs = true → wsNormal b (dropWsBefore tgt cs) = true
  | [], _, h => h
  | c :: rest, b, h => by
    rw [wsNormal, Bool.and_eq_true] at h
    obtain ⟨h1, h2⟩ := h
    by_cases hcond : (isSpaceC c && headIs (List.dropWhile isSpaceC rest) tgt) = true
    · have hx : dropWsBefore tgt (c :: rest) = dropWsBefore tgt rest := by
        show (if isSpaceC c && headIs (List.dropWhile isSpaceC rest) tgt then
          dropWsBefore tgt rest else c :: dropWsBefore tgt rest) = dropWsBefore tgt rest
        rw [if_pos hcond]
      rw [hx]
      rw [Bool.and_eq_true] at hcond
      rw [if_pos hcond.1, Bool.and_eq_true] at h1
      have hb : b = false := by simpa using h1.2
      subst hb
      rw [hcond.1] at h2
      exact wsNormal_true_mono _ false (wsNormal_dropWsBefore tgt rest true h2)
    · have hx : dropWsBefore tgt (c :: rest) = c :: dropWsBefore tgt rest := by
        show (if isSpaceC c && headIs (List.dropWhile isSpaceC rest) tgt then
          dropWsBefore tgt rest else c :: dropWsBefore tgt rest) = c :: dropWsBefore tgt rest
        rw [if_neg hcond]
      rw [hx]
      rw [wsNormal, Bool.and_eq_true]
      exact ⟨h1, wsNormal_dropWsBefore tgt rest (isSpaceC c) h2⟩

theorem noLone_fixTok_other (t r t' : Char) (hrt : (r == t') = false)
    (hw : isWordC r = isWordC t) (cs : List Char) :
    ∀ pw pw2, noLone t' pw2 cs = true → noLone t' pw2 (fixTok t r pw cs) = true := by
  induction cs with
  | nil => intro pw pw2 _; rfl
  | cons c rest ih =>
    intro pw pw2 h
    rw [noLone, Bool.and_eq_true] at h
    obtain ⟨h1, h2⟩ := h
    cases hc : (c == t && !pw && !nextWordB rest) with
    | true =>
      have hx : fixTok t r pw (c :: rest) = r :: fixTok t r (isWordC c) rest := by
        show (if c == t && !pw && !nextWordB rest then r else c) :: _ = _
        rw [if_pos hc]
      rw [hx, noLone, Bool.and_eq_true]
      have hct : c = t := by
        by_contra hne
        have hf : (c == t) = false := by simpa using hne
        rw [hf] at hc
        simp at hc
      constructor
      · rw [Bool.not_eq_true', hrt]
        simp
      · have hwc : isWordC r = isWordC c := by rw [hw, hct]
        rw [hwc]
        exact ih (isWordC c) (isWordC c) h2
    | false =>
      have hx : fixTok t r pw (c :: rest) = c :: fixTok t r (isWordC c) rest := by
        show (if c == t && !pw && !nextWordB rest then r else c) :: _ = _
        rw [if_neg (by simp [hc])]
      rw [hx, noLone, Bool.and_eq_true]
      constructor
      · rw [nextWordB_fixTok t r (isWordC c) rest hw]
        exact h1
      · exact ih (isWordC c) (isWordC c) h2

theorem noLone_collapseSect (t' : Char) (ht' : isWordC t' = true) :
    ∀ cs : List Char, ∀ pw, noLone t' pw cs = true → noLone t' pw (collapseSect cs) = true
  | [], _, h => h
  | [_], _, h => h
  | c :: d :: rest, pw, h => by
    rw [noLone, Bool.and_eq_true] at h
    obtain ⟨h1, h⟩ := h
    rw [noLone, Bool.and_eq_true] at h
    obtain ⟨h2, h3⟩ := h
    cases hcd : (c == '§' && d == '§') with
    | true =>
      have hx : collapseSect (c :: d :: rest) = c :: collapseSect rest := by
        show (if c == '§' && d == '§' then c :: collapseSect rest
          else c :: collapseSect (d :: rest)) = c :: collapseSect rest
        rw [if_pos hcd]
      rw [hx]
      rw [Bool.and_eq_true] at hcd
      have hcs : c = '§' := by simpa using hcd.1
      have hds : d = '§' := by simpa using hcd.2
      have hct' : (c == t') = false := by
        rw [hcs]
        by_contra hne
        have hst : '§' = t' := by simpa using hne
        rw [← hst] at ht'
        exact absurd ht' (by decide)
      rw [noLone, Bool.and_eq_true]
      constructor
      · rw [Bool.not_eq_true', hct']
        simp
      · rw [hcs]
        rw [hds] at h3
        exact noLone_collapseSect t' ht' rest (isWordC '§') h3
    | false =>
      have hx : collapseSect (c :: d :: rest) = c :: collapseSect (d :: rest) := by
        show (if c == '§' && d == '§' then c :: collapseSect rest
          else c :: collapseSect (d :: rest)) = c :: collapseSect (d :: rest)
        rw [if_neg (by simp [hcd])]
      rw [hx, noLone, Bool.and_eq_true]
      constructor
      · rw [nextWordB_collapseSect (d :: rest)]
        exact h1
      · apply noLone_collapseSect t' ht' (d :: rest) (isWordC c)
        rw [noLone, Bool.and_eq_true]
        exact ⟨h2, h3⟩

theorem noLone_dropWsBefore (t' tgt : Char) (ht' : isWordC t' = true)
    (hwt : isWordC tgt = false) :
    ∀ cs : List Char, ∀ pw, noLone t' pw cs = true → noLone t' pw (dropWsBefore tgt cs) = true
  | [], _, h => h
  | c :: rest, pw, h => by
    rw [noLone, Bool.and_eq_true] at h
    obtain ⟨h1, h2⟩ := h
    by_cases hcond : (isSpaceC c && headIs (List.dropWhile isSpaceC rest) tgt) = true
    · have hx : dropWsBefore tgt (c :: rest) = dropWsBefore tgt rest := by
        show (if isSpaceC c && headIs (List.dropWhile isSpaceC rest) tgt then
          dropWsBefore tgt rest else c :: dropWsBefore tgt rest) = dropWsBefore tgt rest
        rw [if_pos hcond]
      rw [hx]
      rw [Bool.and_eq_true] at hcond
      rw [space_not_word hcond.1] at h2
      exact noLone_false_mono t' _ pw (noLone_dropWsBefore t' tgt ht' hwt rest false h2)
    · have hx : dropWsBefore tgt (c :: rest) = c :: dropWsBefore tgt rest := by
        show (if isSpaceC c && headIs (List.dropWhile isSpaceC rest) tgt then
          dropWsBefore tgt rest else c :: dropWsBefore tgt rest) = c :: dropWsBefore tgt rest
        rw [if_neg hcond]
      rw [hx, noLone, Bool.and_eq_true]
      constructor
      · rw [nextWordB_dropWsBefore tgt hwt rest]
        exact h1
      · exact noLone_dropWsBefore t' tgt ht' hwt rest (isWordC c) h2

theorem noSS_tail : ∀ (c : Char) (rest : List Char),
    noSS (c :: rest) = true → noSS rest = true
  | _, [], _ => rfl
  | _, _ :: _, h => by
    rw [noSS, Bool.and_eq_true] at h
    exact h.2

theorem noSS_dropWsBefore (tgt : Char) (hts : (tgt == '§') = false) :
    ∀ cs : List Char, noSS cs = true → noSS (dropWsBefore tgt cs) = true
  | [], h => h
  | c :: rest, h => by
    by_cases hcond : (isSpaceC c && headIs (List.dropWhile isSpaceC rest) tgt) = true
    · have hx : dropWsBefore tgt (c :: rest) = dropWsBefore tgt rest := by
        show (if isSpaceC c && headIs (List.dropWhile isSpaceC rest) tgt then
          dropWsBefore tgt rest else c :: dropWsBefore tgt rest) = dropWsBefore tgt rest
        rw [if_pos hcond]
      rw [hx]
      exact noSS_dropWsBefore tgt hts rest (noSS_tail c rest h)
    · have hx : dropWsBefore tgt (c :: rest) = c :: dropWsBefore tgt rest := by
        show (if isSpaceC c && headIs (List.dropWhile isSpaceC rest) tgt then
          dropWsBefore tgt rest else c :: dropWsBefore tgt rest) = c :: dropWsBefore tgt rest
        rw [if_neg hcond]
      rw [hx]
      cases hdr : dropWsBefore tgt rest with
      | nil => rfl
      | cons e2 ds =>
        rw [noSS, Bool.and_eq_true]
        constructor
        · rw [Bool.not_eq_true']
          by_cases hc : (c == '§') = true
          · by_cases he2 : (e2 == '§') = true
            · exfalso
              have hh : headIs (dropWsBefore tgt rest) '§' = true := by
                rw [hdr]
                simpa [headIs] using he2
              rcases headIs_dropWsBefore tgt '§' (by decide) rest hh with hrest | habs
              · cases rest with
                | nil => simp [headIs] at hrest
                | cons e rest2 =>
                  simp only [headIs] at hrest
                  rw [noSS, Bool.and_eq_true] at h
                  have h1 := h.1
                  rw [Bool.not_eq_true'] at h1
                  rw [hc, hrest] at h1
                  simp at h1
              · rw [← habs] at hts
                simp at hts
            · have he2' : (e2 == '§') = false := by simpa using he2
              rw [he2']
              simp
          · have hc' : (c == '§') = false := by simpa using hc
            rw [hc']
            simp
        · rw [← hdr]
          exact noSS_dropWsBefore tgt hts rest (noSS_tail c rest h)

theorem noWsBefore_dropWsBefore_other (d tgt : Char) (hd : isSpaceC d = false)
    (hne : d ≠ tgt) :
    ∀ cs : List Char, noWsBefore d cs = true → noWsBefore d (dropWsBefore tgt cs) = true
  | [], h => h
  | c :: rest, h => by
    by_cases hcond : (isSpaceC c && headIs (List.dropWhile isSpaceC rest) tgt) = true
    · have hx : dropWsBefore tgt (c :: rest) = dropWsBefore tgt rest := by
        show (if isSpaceC c && headIs (List.dropWhile isSpaceC rest) tgt then
          dropWsBefore tgt rest else c :: dropWsBefore tgt rest) = dropWsBefore tgt rest
        rw [if_pos hcond]
      rw [hx]
      exact noWsBefore_dropWsBefore_other d tgt hd hne rest (noWsBefore_tail d c rest h)
    · have hx : dropWsBefore tgt (c :: rest) = c :: dropWsBefore tgt rest := by
        show (if isSpaceC c && headIs (List.dropWhile isSpaceC rest) tgt then
          dropWsBefore tgt rest else c :: dropWsBefore tgt rest) = c :: dropWsBefore tgt rest
        rw [if_neg hcond]
      rw [hx]
      cases hdr : dropWsBefore tgt rest with
      | nil => rfl
      | cons e2 ds =>
        rw [noWsBefore, Bool.and_eq_true]
        constructor
        · rw [Bool.not_eq_true']
          by_cases hs : isSpaceC c = true
          · by_cases he2 : (e2 == d) = true
            · exfalso
              have hh : headIs (dropWsBefore tgt rest) d = true := by
                rw [hdr]
                simpa [headIs] using he2
              rcases headIs_dropWsBefore tgt d hd rest hh with hrest | habs
              · cases rest with
                | nil => simp [headIs] at hrest
                | cons e rest2 =>
                  simp only [headIs] at hrest
                  rw [noWsBefore, Bool.and_eq_true] at h
                  have h1 := h.1
                  rw [Bool.not_eq_true'] at h1
                  rw [hs, hrest] at h1
                  simp at h1
              · exact hne habs
            · have he2' : (e2 == d) = false := by simpa using he2
              rw [he2']
              simp
          · have hs' : isSpaceC c = false := by simpa using hs
            rw [hs']
            simp
        · rw [← hdr]
          exact noWsBefore_dropWsBefore_other d tgt hd hne rest (noWsBefore_tail d c rest h)

theorem noTriple_cons (a : Char) : ∀ X : List Char, noTriple X = true →
    (a == '§' && headIs X '§' && headIs X.tail '§') = false → noTriple (a :: X) = true
  | [], _, _ => rfl
  | [_], _, _ => rfl
  | x :: y :: X2, hX, hc => by
    rw [noTriple, Bool.and_eq_true]
    constructor
    · rw [Bool.not_eq_true']
      simpa [headIs] using hc
    · exact hX

theorem noTriple_head : ∀ (a : Char) (X : List Char), noTriple (a :: X) = true →
    (a == '§' && headIs X '§' && headIs X.tail '§') = false
  | _, [], _ => by simp [headIs]
  | _, [_], _ => by simp [headIs]
  | a, x :: y :: X2, h => by
    rw [noTriple, Bool.and_eq_true] at h
    have h1 := h.1
    rw [Bool.not_eq_true'] at h1
    simpa [headIs] using h1

theorem headIs_collapseWsAux (l : List Char) :
    headIs (collapseWsAux false l) '§' = true → headIs l '§' = true := by
  cases l with
  | nil => intro h; exact h
  | cons c rest =>
    intro h
    by_cases hs : isSpaceC c = true
    · have hx : collapseWsAux false (c :: rest) = ' ' :: collapseWsAux true rest := by
        show (if isSpaceC c then (if false then [] else [' ']) ++ collapseWsAux true rest
          else c :: collapseWsAux false rest) = ' ' :: collapseWsAux true rest
        rw [if_pos hs]
        rfl
      rw [hx] at h
      simp [headIs] at h
    · have hx : collapseWsAux false (c :: rest) = c :: collapseWsAux false rest := by
        show (if isSpaceC c then (if false then [] else [' ']) ++ collapseWsAux true rest
          else c :: collapseWsAux false rest) = c :: collapseWsAux false rest
        rw [if_neg hs]
      rw [hx] at h
      exact h

theorem noTriple_collapseWsAux (cs : List Char) :
    ∀ b, noTriple cs = true → noTriple (collapseWsAux b cs) = true := by
  induction cs with
  | nil => intro b _; rfl
  | cons c rest ih =>
    intro b h
    have htl := noTriple_tail c rest h
    by_cases hs : isSpaceC c = true
    · cases b with
      | true =>
        have hx : collapseWsAux true (c :: rest) = collapseWsAux true rest := by
          show (if isSpaceC c then (if true then [] else [' ']) ++ collapseWsAux true rest
            else c :: collapseWsAux false rest) = collapseWsAux true rest
          rw [if_pos hs]
          rfl
        rw [hx]
        exact ih true htl
      | false =>
        have hx : collapseWsAux false (c :: rest) = ' ' :: collapseWsAux true rest := by
          show (if isSpaceC c then (if false then [] else [' ']) ++ collapseWsAux true rest
            else c :: collapseWsAux false rest) = ' ' :: collapseWsAux true rest
          rw [if_pos hs]
          rfl
        rw [hx]
        apply noTriple_cons ' ' _ (ih true htl)
        have : ((' ' : Char) == '§') = false := by decide
        rw [this]
        simp
    · have hx : collapseWsAux b (c :: rest) = c :: collapseWsAux false rest := by
        show (if isSpaceC c then (if b then [] else [' ']) ++ collapseWsAux true rest
          else c :: collapseWsAux false rest) = c :: collapseWsAux false rest
        rw [if_neg hs]
      rw [hx]
      apply noTriple_cons c _ (ih false htl)
      by_cases hc : (c == '§') = true
      · by_cases hhX : headIs (collapseWsAux false rest) '§' = true
        · have hre : headIs rest '§' = true := headIs_collapseWsAux rest hhX
          cases rest with
          | nil => simp [headIs] at hre
          | cons e rest2 =>
            simp only [headIs] at hre
            have hes : e = '§' := by simpa using hre
            have hens : isSpaceC e = false := by rw [hes]; decide
            have hX2 : collapseWsAux false (e :: rest2) = e :: collapseWsAux false rest2 := by
              show (if isSpaceC e then (if false then [] else [' ']) ++ collapseWsAux true rest2
                else e :: collapseWsAux false rest2) = e :: collapseWsAux false rest2
              rw [if_neg (by simp [hens])]
            rw [hX2]
            by_cases hhXt : headIs (collapseWsAux false rest2) '§' = true
            · exfalso
              have hre2 : headIs rest2 '§' = true := headIs_collapseWsAux rest2 hhXt
              have hcontra := noTriple_head c (e :: rest2) h
              have hhe : headIs (e :: rest2) '§' = true := hre
              rw [List.tail_cons, hc, hhe, hre2] at hcontra
              simp at hcontra
            · have hf : headIs (collapseWsAux false rest2) '§' = false := by
                simpa using hhXt
              simp only [List.tail_cons]
              rw [hf]
              simp
        · have hf : headIs (collapseWsAux false rest) '§' = false := by simpa using hhX
          rw [hf]
          simp
      · have hf : (c == '§') = false := by simpa using hc
        rw [hf]
        simp

theorem headIs_fixTok (t r : Char) (hr : (r == '§') = false) (pw : Bool) (l : List Char) :
    headIs (fixTok t r pw l) '§' = true → headIs l '§' = true := by
  cases l with
  | nil => intro h; exact h
  | cons c rest =>
    intro h
    cases hc : (c == t && !pw && !nextWordB rest) with
    | true =>
      have hx : fixTok t r pw (c :: rest) = r :: fixTok t r (isWordC c) rest := by
        show (if c == t && !pw && !nextWordB rest then r else c) :: _ = _
        rw [if_pos hc]
      rw [hx] at h
      simp only [headIs] at h
      rw [hr] at h
      simp at h
    | false =>
      have hx : fixTok t r pw (c :: rest) = c :: fixTok t r (isWordC c) rest := by
        show (if c == t && !pw && !nextWordB rest then r else c) :: _ = _
        rw [if_neg (by simp [hc])]
      rw [hx] at h
      exact h

theorem noTriple_fixTok (t r : Char) (hr : (r == '§') = false) (cs : List Char) :
    ∀ pw, noTriple cs = true → noTriple (fixTok t r pw cs) = true := by
  induction cs with
  | nil => intro pw _; rfl
  | cons c rest ih =>
    intro pw h
    have htl := noTriple_tail c rest h
    have hx : fixTok t r pw (c :: rest) =
        (if c == t && !pw && !nextWordB rest then r else c) :: fixTok t r (isWordC c) rest :=
      rfl
    rw [hx]
    apply noTriple_cons _ _ (ih (isWordC c) htl)
    by_cases hc' : ((if c == t && !pw && !nextWordB rest then r else c) == '§') = true
    · have hcs : (c == '§') = true := by
        by_cases hcc : (c == t && !pw && !nextWordB rest) = true
        · rw [if_pos hcc] at hc'
          rw [hr] at hc'
          simp at hc'
        · rwa [if_neg hcc] at hc'
      by_cases hhX : headIs (fixTok t r (isWordC c) rest) '§' = true
      · have hre : headIs rest '§' = true := headIs_fixTok t r hr (isWordC c) rest hhX
        cases rest with
        | nil => simp [headIs] at hre
        | cons e rest2 =>
          have hX2 : fixTok t r (isWordC c) (e :: rest2) =
              (if e == t && !(isWordC c) && !nextWordB rest2 then r else e) ::
                fixTok t r (isWordC e) rest2 :=
            rfl
          rw [hX2]
          simp only [List.tail_cons]
          by_cases hhXt : headIs (fixTok t r (isWordC e) rest2) '§' = true
          · exfalso
            have hre2 : headIs rest2 '§' = true := headIs_fixTok t r hr (isWordC e) rest2 hhXt
            have hcontra := noTriple_head c (e :: rest2) h
            rw [List.tail_cons, hcs, hre, hre2] at hcontra
            simp at hcontra
          · have hf : headIs (fixTok t r (isWordC e) rest2) '§' = false := by simpa using hhXt
            rw [hf]
            simp
      · have hf : headIs (fixTok t r (isWordC c) rest) '§' = false := by simpa using hhX
        rw [hf]
        simp
    · have hf : ((if c == t && !pw && !nextWordB rest then r else c) == '§') = false := by
        simpa using hc'
      rw [hf]
      simp

/-! ## Strip preserves all normal forms -/

theorem wsNormal_append (xs : List Char) : ∀ (ys : List Char) (b : Bool),
    wsNormal b (xs ++ ys) = true → wsNormal b xs = true := by
  induction xs with
  | nil => intro ys b _; rfl
  | cons c xs' ih =>
    intro ys b h
    rw [List.cons_append, wsNormal, Bool.and_eq_true] at h
    rw [wsNormal, Bool.and_eq_true]
    exact ⟨h.1, ih ys (isSpaceC c) h.2⟩

theorem wsNormal_dropWhile (cs : List Char) : ∀ b b',
    wsNormal b cs = true → wsNormal b' (List.dropWhile isSpaceC cs) = true := by
  induction cs with
  | nil => intro b b' _; rfl
  | cons c rest ih =>
    intro b b' h
    rw [wsNormal, Bool.and_eq_true] at h
    obtain ⟨h1, h2⟩ := h
    by_cases hs : isSpaceC c = true
    · rw [List.dropWhile_cons_of_pos hs]
      rw [hs] at h2
      exact ih true b' h2
    · rw [List.dropWhile_cons_of_neg hs]
      rw [wsNormal, Bool.and_eq_true]
      refine ⟨?_, h2⟩
      rw [if_neg hs]

theorem nextWordB_append_spaces (xs ss : List Char) (hss : ss.all isSpaceC = true) :
    nextWordB (xs ++ ss) = nextWordB xs := by
  cases xs with
  | nil =>
    rw [List.nil_append]
    cases ss with
    | nil => rfl
    | cons s ss2 =>
      rw [List.all_cons, Bool.and_eq_true] at hss
      show isWordC s = false
      exact space_not_word hss.1
  | cons d xs2 => rfl

theorem noLone_append_spaces (t : Char) (xs : List Char) : ∀ (ss : List Char) (pw : Bool),
    ss.all isSpaceC = true → noLone t pw (xs ++ ss) = true → noLone t pw xs = true := by
  induction xs with
  | nil => intro ss pw _ _; rfl
  | cons c xs' ih =>
    intro ss pw hss h
    rw [List.cons_append, noLone, Bool.and_eq_true] at h
    rw [noLone, Bool.and_eq_true]
    constructor
    · have h1 := h.1
      rw [nextWordB_append_spaces xs' ss hss] at h1
      exact h1
    · exact ih ss (isWordC c) hss h.2

theorem noLone_dropWhile (t : Char) (cs : List Char) :
    noLone t false cs = true → noLone t false (List.dropWhile isSpaceC cs) = true := by
  induction cs with
  | nil => intro _; rfl
  | cons c rest ih =>
    intro h
    rw [noLone, Bool.and_eq_true] at h
    by_cases hs : isSpaceC c = true
    · rw [List.dropWhile_cons_of_pos hs]
      have h2 := h.2
      rw [space_not_word hs] at h2
      exact ih h2
    · rw [List.dropWhile_cons_of_neg hs]
      rw [noLone, Bool.and_eq_true]
      exact h

theorem noSS_append : ∀ (xs ys : List Char), noSS (xs ++ ys) = true → noSS xs = true
  | [], _, _ => rfl
  | [_], _, _ => rfl
  | c :: d :: xs2, ys, h => by
    rw [List.cons_append, List.cons_append, noSS, Bool.and_eq_true] at h
    rw [noSS, Bool.and_eq_true]
    refine ⟨h.1, ?_⟩
    have h2 := h.2
    rw [← List.cons_append] at h2
    exact noSS_append (d :: xs2) ys h2

theorem noSS_dropWhile (cs : List Char) :
    noSS cs = true → noSS (List.dropWhile isSpaceC cs) = true := by
  induction cs with
  | nil => intro _; rfl
  | cons c rest ih =>
    intro h
    by_cases hs : isSpaceC c = true
    · rw [List.dropWhile_cons_of_pos hs]
      exact ih (noSS_tail c rest h)
    · rw [List.dropWhile_cons_of_neg hs]
      exact h

theorem noWsBefore_append (d : Char) : ∀ (xs ys : List Char),
    noWsBefore d (xs ++ ys) = true → noWsBefore d xs = true
  | [], _, _ => rfl
  | [_], _, _ => rfl
  | c :: e :: xs2, ys, h => by
    rw [List.cons_append, List.cons_append, noWsBefore, Bool.and_eq_true] at h
    rw [noWsBefore, Bool.and_eq_true]
    refine ⟨h.1, ?_⟩
    have h2 := h.2
    rw [← List.cons_append] at h2
    exact noWsBefore_append d (e :: xs2) ys h2

theorem noWsBefore_dropWhile (d : Char) (cs : List Char) :
    noWsBefore d cs = true → noWsBefore d (List.dropWhile isSpaceC cs) = true := by
  induction cs with
  | nil => intro _; rfl
  | cons c rest ih =>
    intro h
    by_cases hs : isSpaceC c = true
    · rw [List.dropWhile_cons_of_pos hs]
      exact ih (noWsBefore_tail d c rest h)
    · rw [List.dropWhile_cons_of_neg hs]
      exact h

theorem wsNormal_pyStrip (z : List Char) (b : Bool) (h : wsNormal b z = true) :
    wsNormal false (pyStrip z) = true := by
  have h1 := wsNormal_dropWhile z b false h
  obtain ⟨ss, hd, hall⟩ := stripR_decomp (List.dropWhile isSpaceC z)
  rw [hd] at h1
  exact wsNormal_append _ ss false h1

theorem noLone_pyStrip (t : Char) (z : List Char) (h : noLone t false z = true) :
    noLone t false (pyStrip z) = true := by
  have h1 := noLone_dropWhile t z h
  obtain ⟨ss, hd, hall⟩ := stripR_decomp (List.dropWhile isSpaceC z)
  rw [hd] at h1
  exact noLone_append_spaces t _ ss false hall h1

theorem noSS_pyStrip (z : List Char) (h : noSS z = true) : noSS (pyStrip z) = true := by
  have h1 := noSS_dropWhile z h
  obtain ⟨ss, hd, hall⟩ := stripR_decomp (List.dropWhile isSpaceC z)
  rw [hd] at h1
  exact noSS_append _ ss h1

theorem noWsBefore_pyStrip (d : Char) (z : List Char) (h : noWsBefore d z = true) :
    noWsBefore d (pyStrip z) = true := by
  have h1 := noWsBefore_dropWhile d z h
  obtain ⟨ss, hd, hall⟩ := stripR_decomp (List.dropWhile isSpaceC z)
  rw [hd] at h1
  exact noWsBefore_append d _ ss h1

theorem headNotSpace_pyStrip (z : List Char) : headNotSpace (pyStrip z) = true :=
  headNotSpace_stripR _ (headNotSpace_dropWhile z)

theorem lastNotSpace_pyStrip (z : List Char) : lastNotSpace (pyStrip z) = true :=
  lastNotSpace_stripR _

/-! ## Idempotence of the clean pipeline -/

theorem cleanCore_idem (l : List Char) (hl : noTriple l = true) :
    cleanCore (cleanCore l) = cleanCore l := by
  have hws : wsNormal false (cleanCore l) = true := by
    show wsNormal false (pyStrip (dropWsBefore ',' (dropWsBefore '.' (collapseSect
      (fixTok 'O' '0' false (fixTok 'l' '1' false (collapseWsAux false l))))))) = true
    apply wsNormal_pyStrip _ false
    apply wsNormal_dropWsBefore ','
    apply wsNormal_dropWsBefore '.'
    apply wsNormal_collapseSect
    apply wsNormal_fixTok 'O' '0' (by decide) (by decide)
    apply wsNormal_fixTok 'l' '1' (by decide) (by decide)
    exact wsNormal_collapseWsAux l false
  have hl1 : noLone 'l' false (cleanCore l) = true := by
    show noLone 'l' false (pyStrip (dropWsBefore ',' (dropWsBefore '.' (collapseSect
      (fixTok 'O' '0' false (fixTok 'l' '1' false (collapseWsAux false l))))))) = true
    apply noLone_pyStrip
    apply noLone_dropWsBefore 'l' ',' (by decide) (by decide)
    apply noLone_dropWsBefore 'l' '.' (by decide) (by decide)
    apply noLone_collapseSect 'l' (by decide)
    apply noLone_fixTok_other 'O' '0' 'l' (by decide) (by decide)
    exact noLone_fixTok 'l' '1' (by decide) (by decide) _ false
  have hlO : noLone 'O' false (cleanCore l) = true := by
    show noLone 'O' false (pyStrip (dropWsBefore ',' (dropWsBefore '.' (collapseSect
      (fixTok 'O' '0' false (fixTok 'l' '1' false (collapseWsAux false l))))))) = true
    apply noLone_pyStrip
    apply noLone_dropWsBefore 'O' ',' (by decide) (by decide)
    apply noLone_dropWsBefore 'O' '.' (by decide) (by decide)
    apply noLone_collapseSect 'O' (by decide)
    exact noLone_fixTok 'O' '0' (by decide) (by decide) _ false
  have hss : noSS (cleanCore l) = true := by
    show noSS (pyStrip (dropWsBefore ',' (dropWsBefore '.' (collapseSect
      (fixTok 'O' '0' false (fixTok 'l' '1' false (collapseWsAux false l))))))) = true
    apply noSS_pyStrip
    apply noSS_dropWsBefore ',' (by decide)
    apply noSS_dropWsBefore '.' (by decide)
    apply noSS_collapseSect
    apply noTriple_fixTok 'O' '0' (by decide)
    apply noTriple_fixTok 'l' '1' (by decide)
    apply noTriple_collapseWsAux
    exact hl
  have hw5 : noWsBefore '.' (cleanCore l) = true := by
    show noWsBefore '.' (pyStrip (dropWsBefore ',' (dropWsBefore '.' (collapseSect
      (fixTok 'O' '0' false (fixTok 'l' '1' false (collapseWsAux false l))))))) = true
    apply noWsBefore_pyStrip
    apply noWsBefore_dropWsBefore_other '.' ',' (by decide) (by decide)
    exact noWsBefore_dropWsBefore '.' (by decide) _
  have hw6 : noWsBefore ',' (cleanCore l) = true := by
    show noWsBefore ',' (pyStrip (dropWsBefore ',' (dropWsBefore '.' (collapseSect
      (fixTok 'O' '0' false (fixTok 'l' '1' false (collapseWsAux false l))))))) = true
    apply noWsBefore_pyStrip
    exact noWsBefore_dropWsBefore ',' (by decide) _
  have hhead : headNotSpace (cleanCore l) = true := headNotSpace_pyStrip _
  have hlast : lastNotSpace (cleanCore l) = true := lastNotSpace_pyStrip _
  show pyStrip (dropWsBefore ',' (dropWsBefore '.' (collapseSect
    (fixTok 'O' '0' false (fixTok 'l' '1' false
      (collapseWsAux false (cleanCore l))))))) = cleanCore l
  rw [collapseWsAux_id (cleanCore l) false hws]
  rw [fixTok_id 'l' '1' (cleanCore l) false hl1]
  rw [fixTok_id 'O' '0' (cleanCore l) false hlO]
  rw [collapseSect_id (cleanCore l) hss]
  rw [dropWsBefore_id '.' (cleanCore l) hw5]
  rw [dropWsBefore_id ',' (cleanCore l) hw6]
  exact pyStrip_id hhead hlast

/-- C3: `clean_legal_text` is idempotent on every input with no run of
three or more consecutive section symbols; the `§§`→`§` rule collapses
only one level per pass, so `"§§§§"` cleans to `"§§"` (not `"§"`). -/
theorem clean_legal_text_idempotent :
    (∀ s : String, noTriple s.toList = true →
      clean_legal_text (clean_legal_text s) = clean_legal_text s) ∧
    clean_legal_text "§§§§" = "§§" := by
  constructor
  · intro s hs
    show (cleanCore (clean_legal_text s).toList).asString = (cleanCore s.toList).asString
    have ht : (clean_legal_text s).toList = cleanCore s.toList := rfl
    rw [ht, cleanCore_idem s.toList hs]
  · decide

/-- C3 witness: idempotence applied at a concrete input satisfying the
side condition. -/
theorem clean_legal_text_idempotent_witness :
    clean_legal_text (clean_legal_text "a  §§ b .") = clean_legal_text "a  §§ b ." :=
  clean_legal_text_idempotent.1 "a  §§ b ." (by decide)
